import Mathlib

/-!
Shallow embedding of the typix drawing core:
  * `src/types/app.types.ts`, `src/types/canvas.types.ts` — data model
  * `src/contexts/CanvasContext.tsx` — `canvasReducer` and the dispatch helpers
  * `src/components/Canvas.tsx` — the pan-responder pointer-event mapping
  * `src/modules/canvas/bezierUtils.ts` — `getControlPoints`, `simplifyPath`,
    `createSmoothPath`

JavaScript numbers are modelled as exact rationals (`ℚ`); the only numeric
comparison in the modelled code is `Math.sqrt(dx*dx + dy*dy) >= tolerance`,
which over the reals is equivalent to `tolerance ≤ 0 ∨ tolerance² ≤ dx² + dy²`,
so no square root is needed.
-/

/-- Point from `app.types.ts`: `{x, y, pressure?}`. -/
structure Point where
  x : ℚ
  y : ℚ
  pressure : Option ℚ := none
deriving DecidableEq, Repr

/-- RGBColor from `app.types.ts`: `{r, g, b, a?}`. -/
structure RGBColor where
  r : ℚ
  g : ℚ
  b : ℚ
  a : Option ℚ := none
deriving DecidableEq, Repr

/-- StrokeStyle from `canvas.types.ts`: `{color, width, opacity?}`. -/
structure StrokeStyle where
  color : RGBColor
  width : ℚ
  opacity : Option ℚ := none
deriving DecidableEq, Repr

/-- The command tag union `'stroke' | 'erase' | 'clear'` from `canvas.types.ts`. -/
inductive CmdType where
  | stroke
  | erase
  | clear
deriving DecidableEq, Repr

/-- DrawCommand from `canvas.types.ts`: `{id, type, points?, style?}`. -/
structure DrawCommand where
  id : String
  type : CmdType
  points : Option (List Point) := none
  style : Option StrokeStyle := none
deriving DecidableEq, Repr

/-- CanvasState from `canvas.types.ts`. -/
structure CanvasState where
  commands : List DrawCommand
  currentCommand : Option DrawCommand := none
  scale : ℚ
  offset : ℚ × ℚ
  dimensions : ℚ × ℚ
deriving DecidableEq, Repr

/-- CanvasAction from `canvas.types.ts`, one constructor per tagged variant. -/
inductive CanvasAction where
  | startStroke (id : String) (point : Point) (style : StrokeStyle)
  | addPoint (point : Point)
  | endStroke
  | clearCanvas
  | undo
  | redo
  | setScale (scale : ℚ)
  | setOffset (x y : ℚ)
  | setDimensions (width height : ℚ)
deriving DecidableEq, Repr

/-- `initialCanvasState` from `CanvasContext.tsx`. -/
def initialCanvasState : CanvasState :=
  { commands := []
    scale := 1
    offset := (0, 0)
    dimensions := (0, 0) }

/-- `canvasReducer` from `CanvasContext.tsx` lines 14–90.  The `REDO` action has
no case in the source switch and falls through to the `default` branch, which
returns the state unchanged; `SET_SCALE`, `SET_OFFSET` and `SET_DIMENSIONS` are
carried over verbatim. -/
def canvasReducer (state : CanvasState) (action : CanvasAction) : CanvasState :=
  match action with
  | .startStroke id point style =>
      { state with
        currentCommand := some
          { id := id
            type := .stroke
            points := some [point]
            style := some style } }
  | .addPoint point =>
      match state.currentCommand with
      | none => state
      | some current =>
          { state with
            currentCommand := some
              { current with points := some ((current.points.getD []) ++ [point]) } }
  | .endStroke =>
      match state.currentCommand with
      | none => state
      | some current =>
          { state with
            commands := state.commands ++ [current]
            currentCommand := none }
  | .clearCanvas =>
      { state with commands := [], currentCommand := none }
  | .undo =>
      if state.commands = [] then state
      else { state with commands := state.commands.dropLast }
  | .redo => state
  | .setScale scale => { state with scale := scale }
  | .setOffset x y => { state with offset := (x, y) }
  | .setDimensions w h => { state with dimensions := (w, h) }

/-- ToolType from `tools.types.ts`: `'pen' | 'eraser' | 'selector'`. -/
inductive ToolType where
  | pen
  | eraser
  | selector
deriving DecidableEq, Repr

/-- ToolSettings from `tools.types.ts`. -/
structure ToolSettings where
  type : ToolType
  color : RGBColor
  size : ℚ
  opacity : ℚ
deriving DecidableEq, Repr

/-- The style snapshot built by `startStroke` in `CanvasContext.tsx` from the
tool state read by `onPanResponderGrant` in `Canvas.tsx`: `{ color, width: size }`
(the tool's opacity is not copied into the stroke style by the source). -/
def styleOfTool (t : ToolSettings) : StrokeStyle :=
  { color := t.color, width := t.size }

/-- `onPanResponderGrant` (`Canvas.tsx` lines 37–43) composed with the provider
helper `startStroke`: reads `{color, size}` from the current tool state and
dispatches `START_STROKE` with a fresh id, the touch point, and the style
snapshot. -/
def pointerDown (tool : ToolSettings) (id : String) (p : Point)
    (s : CanvasState) : CanvasState :=
  canvasReducer s (.startStroke id p (styleOfTool tool))

/-- `onPanResponderMove` composed with `continueStroke`: dispatches `ADD_POINT`.
It reads nothing from the tool state. -/
def pointerMove (p : Point) (s : CanvasState) : CanvasState :=
  canvasReducer s (.addPoint p)

/-- `onPanResponderRelease` composed with `endStroke`: dispatches `END_STROKE`. -/
def pointerUp (s : CanvasState) : CanvasState :=
  canvasReducer s .endStroke

/-- `onPanResponderTerminate` (cancelled gesture) also calls `endStroke`. -/
def pointerCancel (s : CanvasState) : CanvasState :=
  canvasReducer s .endStroke

/-- The provider helper `undo`: dispatches `UNDO`. -/
def undo (s : CanvasState) : CanvasState :=
  canvasReducer s .undo

/-- The provider helper `clearCanvas`: dispatches `CLEAR_CANVAS`. -/
def clearCanvas (s : CanvasState) : CanvasState :=
  canvasReducer s .clearCanvas

/-- C1: for every canvas state, tool settings sampled at the pointerDown
instant, fresh id and points p0 p1 p2, the sequence
pointerDown(p0); pointerMove(p1); pointerMove(p2); pointerUp() appends exactly
one command to the end of the log — points `[p0, p1, p2]`, style the snapshot
of the sampled tool settings — leaves the rest of the log unchanged, and leaves
no inProgress command.  `pointerMove` and `pointerUp` take no tool input, so
tool-setting changes after the pointerDown cannot affect the committed style. -/
theorem gesture_appends_single_command (s : CanvasState) (t : ToolSettings)
    (id : String) (p0 p1 p2 : Point) :
    (pointerUp (pointerMove p2 (pointerMove p1 (pointerDown t id p0 s)))).commands
      = s.commands ++
        [{ id := id, type := .stroke, points := some [p0, p1, p2],
           style := some (styleOfTool t) }] ∧
    (pointerUp (pointerMove p2 (pointerMove p1 (pointerDown t id p0 s)))).currentCommand
      = none := by
  constructor <;> rfl

/-- C2: `undo` replaces the log with the log minus its last entry
(`slice(0,-1)`, i.e. `dropLast`, which on an empty log is the empty log, so an
empty-log undo returns the state unchanged), preserves the order of the
remaining entries, and never modifies the inProgress command. -/
theorem undo_drops_last (s : CanvasState) :
    undo s = { s with commands := s.commands.dropLast } ∧
    (undo s).currentCommand = s.currentCommand := by
  refine ⟨?_, ?_⟩
  · unfold undo canvasReducer
    by_cases h : s.commands = []
    · cases s
      simp_all
    · simp [h]
  · unfold undo canvasReducer
    by_cases h : s.commands = []
    · simp [h]
    · simp [h]

/-- C7: from any prior state — any log contents, with or without an inProgress
command — `clearCanvas` yields an empty log and no inProgress command. -/
theorem clear_empties_log (s : CanvasState) :
    (clearCanvas s).commands = [] ∧ (clearCanvas s).currentCommand = none := by
  constructor <;> rfl

/-- C8: when no inProgress command is active, pointerMove, pointerUp and
pointerCancel return the state unchanged; the reducer is a total function, so
no error can be raised. -/
theorem no_current_command_noop (s : CanvasState)
    (h : s.currentCommand = none) (p : Point) :
    pointerMove p s = s ∧ pointerUp s = s ∧ pointerCancel s = s := by
  unfold pointerMove pointerUp pointerCancel canvasReducer
  rw [h]
  exact ⟨rfl, rfl, rfl⟩

/-- Witness for C8 at a concrete state. -/
theorem no_current_command_noop_witness :
    initialCanvasState.currentCommand = none ∧
    (pointerMove ⟨1, 2, none⟩ initialCanvasState = initialCanvasState ∧
     pointerUp initialCanvasState = initialCanvasState ∧
     pointerCancel initialCanvasState = initialCanvasState) :=
  ⟨rfl, no_current_command_noop initialCanvasState rfl ⟨1, 2, none⟩⟩

/-- C10: a pointerDown while an inProgress command is already active replaces
it with a fresh single-point command — the partial points of the previous
in-progress command are discarded, not committed — and the log is unchanged. -/
theorem second_pointer_down_discards (s : CanvasState) (c : DrawCommand)
    (_h : s.currentCommand = some c) (t : ToolSettings) (id : String) (p : Point) :
    (pointerDown t id p s).currentCommand
      = some { id := id, type := .stroke, points := some [p],
               style := some (styleOfTool t) } ∧
    (pointerDown t id p s).commands = s.commands := by
  exact ⟨rfl, rfl⟩

/-- Witness for C10 at a concrete mid-gesture state. -/
theorem second_pointer_down_discards_witness :
    (pointerDown ⟨.pen, ⟨0, 0, 0, some 1⟩, 5, 1⟩ "b"
        ⟨3, 4, none⟩
        { initialCanvasState with
          currentCommand := some
            { id := "a", type := .stroke, points := some [⟨0, 0, none⟩],
              style := some ⟨⟨0, 0, 0, some 1⟩, 5, none⟩ } }).currentCommand
      = some { id := "b", type := .stroke, points := some [⟨3, 4, none⟩],
               style := some ⟨⟨0, 0, 0, some 1⟩, 5, none⟩ } ∧
    (pointerDown ⟨.pen, ⟨0, 0, 0, some 1⟩, 5, 1⟩ "b"
        ⟨3, 4, none⟩
        { initialCanvasState with
          currentCommand := some
            { id := "a", type := .stroke, points := some [⟨0, 0, none⟩],
              style := some ⟨⟨0, 0, 0, some 1⟩, 5, none⟩ } }).commands
      = initialCanvasState.commands :=
  second_pointer_down_discards _ _ rfl _ _ _

/-- `getControlPoints` from `bezierUtils.ts` lines 13–20: the Catmull-Rom-style
control point `p1 + (p2 - p0) / 6` (the constructed object has no pressure
field). -/
def getControlPoints (p0 p1 p2 : Point) : Point :=
  { x := p1.x + (p2.x - p0.x) / 6
    y := p1.y + (p2.y - p0.y) / 6 }

/-- The retain condition of the `simplifyPath` loop: the source computes
`Math.sqrt((p.x - lastPoint.x)^2 + (p.y - lastPoint.y)^2) >= tolerance`; over
exact arithmetic this is `tolerance ≤ 0 ∨ tolerance² ≤ dx² + dy²`. -/
def distGe (p lastPoint : Point) (tolerance : ℚ) : Bool :=
  tolerance ≤ 0 ∨
    tolerance ^ 2 ≤ (p.x - lastPoint.x) ^ 2 + (p.y - lastPoint.y) ^ 2

/-- The `for` loop of `simplifyPath` (lines 34–44): walk the remaining points,
pushing a point onto `result` and promoting it to `lastPoint` exactly when its
distance from `lastPoint` is at least the tolerance. -/
def simplifyAux (tolerance : ℚ) : List Point → Point → List Point → List Point
  | [], _, result => result
  | p :: rest, lastPoint, result =>
      if distGe p lastPoint tolerance then
        simplifyAux tolerance rest p (result ++ [p])
      else
        simplifyAux tolerance rest lastPoint result

/-- `simplifyPath` from `bezierUtils.ts` lines 28–52, default tolerance 2.
After the loop the source force-includes the final input point unless the last
retained element already is that point (the source compares with `!==`; on
arrays of distinct point objects that identity test agrees with the value test
modelled here). -/
def simplifyPath (points : List Point) (tolerance : ℚ := 2) : List Point :=
  if points.length ≤ 2 then points
  else
    match points with
    | [] => []
    | p0 :: rest =>
        let result := simplifyAux tolerance rest p0 [p0]
        match points.getLast? with
        | none => result
        | some lastPt =>
            if result.getLast? = some lastPt then result else result ++ [lastPt]

/-- One drawable segment of the SVG path string built by `createSmoothPath`:
`M x,y`, `L x,y`, or `Q cx,cy x,y` (the string interpolates only the `x` and
`y` coordinates of the points). -/
inductive PathCmd where
  | moveTo (x y : ℚ)
  | lineTo (x y : ℚ)
  | quadTo (cx cy x y : ℚ)
deriving DecidableEq, Repr

/-- The middle-segment loop of `createSmoothPath` (lines 75–83): at step `i`
the window is `(points[i-1], points[i], points[i+1])`, the emitted segment is
`Q cp (midpoint of points[i] and points[i+1])` with `cp = getControlPoints` of
the window. -/
def midQuads : Point → Point → List Point → List PathCmd
  | _, _, [] => []
  | p0, p1, p2 :: rest =>
      let cp := getControlPoints p0 p1 p2
      .quadTo cp.x cp.y ((p1.x + p2.x) / 2) ((p1.y + p2.y) / 2)
        :: midQuads p1 p2 rest

/-- `createSmoothPath` from `bezierUtils.ts` lines 59–91, as the sequence of
path commands its SVG string spells out: empty for fewer than 2 points; `M, L`
for exactly 2; otherwise `M p0`, a quadratic with control point `p0` ending at
the midpoint of `p0, p1`, the middle-segment quadratics for `i = 1 .. n-2`, and
a final straight line to `points[points.length - 1]`. -/
def createSmoothPath (points : List Point) : List PathCmd :=
  match points with
  | [] => []
  | [_] => []
  | [p0, p1] => [.moveTo p0.x p0.y, .lineTo p1.x p1.y]
  | p0 :: p1 :: p2 :: rest =>
      let lastPt := (p2 :: rest).getLast (List.cons_ne_nil p2 rest)
      [PathCmd.moveTo p0.x p0.y,
       PathCmd.quadTo p0.x p0.y ((p0.x + p1.x) / 2) ((p0.y + p1.y) / 2)]
        ++ midQuads p0 p1 (p2 :: rest)
        ++ [PathCmd.lineTo lastPt.x lastPt.y]

/-- Retain relation between consecutive kept points of the simplify loop: the
later point passed the distance test against the earlier one. -/
def retainRel (t : ℚ) (a b : Point) : Prop :=
  distGe b a t = true

/-- The simplify loop only appends: its output is `result` followed by a
sublist of the remaining input. -/
lemma simplifyAux_append (t : ℚ) :
    ∀ (l : List Point) (lp : Point) (res : List Point),
      ∃ s, simplifyAux t l lp res = res ++ s ∧ s.Sublist l := by
  intro l
  induction l with
  | nil => exact fun lp res => ⟨[], by simp [simplifyAux], List.Sublist.refl _⟩
  | cons p rest ih =>
      intro lp res
      by_cases h : distGe p lp t = true
      · obtain ⟨s, hs, hsub⟩ := ih p (res ++ [p])
        exact ⟨p :: s, by simp [simplifyAux, h, hs], List.Sublist.cons₂ p hsub⟩
      · obtain ⟨s, hs, hsub⟩ := ih lp res
        exact ⟨s, by simp [simplifyAux, h, hs], List.Sublist.cons p hsub⟩

/-- The simplify loop preserves the retain chain: if `result` is chained and
ends in `lastPoint`, the final output is chained. -/
lemma simplifyAux_chain (t : ℚ) :
    ∀ (l : List Point) (lp : Point) (res : List Point),
      List.Chain' (retainRel t) res → res.getLast? = some lp →
      List.Chain' (retainRel t) (simplifyAux t l lp res) := by
  intro l
  induction l with
  | nil => intro lp res hc _; simpa [simplifyAux] using hc
  | cons p rest ih =>
      intro lp res hc hlast
      by_cases h : distGe p lp t = true
      · simp only [simplifyAux, h, if_true]
        refine ih p (res ++ [p]) ?_ (by simp)
        rw [List.chain'_append]
        refine ⟨hc, List.chain'_singleton p, ?_⟩
        intro x hx y hy
        rw [hlast] at hx
        simp only [Option.mem_def, Option.some.injEq] at hx
        simp only [List.head?_cons, Option.mem_def, Option.some.injEq] at hy
        subst hx; subst hy
        exact h
      · simp only [simplifyAux, h, if_false, Bool.false_eq_true]
        exact ih lp res hc hlast

/-- When the whole remaining input already satisfies the retain chain starting
from `lastPoint`, the loop keeps every point. -/
lemma simplifyAux_of_chain (t : ℚ) :
    ∀ (l : List Point) (lp : Point),
      List.Chain' (retainRel t) (lp :: l) →
      ∀ res, simplifyAux t l lp res = res ++ l := by
  intro l
  induction l with
  | nil => intro lp _ res; simp [simplifyAux]
  | cons p rest ih =>
      intro lp hc res
      rw [List.chain'_cons] at hc
      have h : distGe p lp t = true := hc.1
      simp [simplifyAux, h, ih p hc.2]

/-- When the input is chained except that its very last point fails the
distance test against the preceding retained point, the loop keeps everything
but that last point. -/
lemma simplifyAux_concat_skip (t : ℚ) :
    ∀ (l : List Point) (lp : Point) (b : Point),
      List.Chain' (retainRel t) (lp :: l) →
      distGe b ((lp :: l).getLast (List.cons_ne_nil lp l)) t = false →
      ∀ res, simplifyAux t (l ++ [b]) lp res = res ++ l := by
  intro l
  induction l with
  | nil =>
      intro lp b _ hlast res
      simp only [List.getLast_singleton] at hlast
      simp [simplifyAux, hlast]
  | cons p rest ih =>
      intro lp b hc hlast res
      rw [List.chain'_cons] at hc
      have h : distGe p lp t = true := hc.1
      rw [List.getLast_cons (List.cons_ne_nil p rest)] at hlast
      simp only [List.cons_append, simplifyAux, h, if_true, List.append_eq]
      rw [ih p b hc.2 hlast (res ++ [p])]
      simp

/-- Unfolding of `simplifyPath` on a list longer than 2. -/
lemma simplifyPath_cons (t : ℚ) (p0 : Point) (rest : List Point)
    (h : ¬(p0 :: rest).length ≤ 2) (lastPt : Point)
    (hl : (p0 :: rest).getLast? = some lastPt) :
    simplifyPath (p0 :: rest) t =
      (if (simplifyAux t rest p0 [p0]).getLast? = some lastPt
       then simplifyAux t rest p0 [p0]
       else simplifyAux t rest p0 [p0] ++ [lastPt]) := by
  rw [simplifyPath.eq_def, if_neg h]
  rw [hl]

/-- A list of length at most 2 is returned unchanged by `simplifyPath`. -/
lemma simplifyPath_short (ps : List Point) (t : ℚ) (h : ps.length ≤ 2) :
    simplifyPath ps t = ps := by
  rw [simplifyPath.eq_def, if_pos h]

/-- C3: for every non-empty point list and every tolerance (default 2),
`simplifyPath` preserves the first and the last input point, never returns
more points than it was given, and returns inputs of length at most 2
unchanged. -/
theorem simplifyPath_endpoints (ps : List Point) (t : ℚ) (h : ps ≠ []) :
    (simplifyPath ps t).head? = ps.head? ∧
    (simplifyPath ps t).getLast? = ps.getLast? ∧
    (simplifyPath ps t).length ≤ ps.length ∧
    (ps.length ≤ 2 → simplifyPath ps t = ps) := by
  by_cases h2 : ps.length ≤ 2
  · rw [simplifyPath_short ps t h2]
    exact ⟨rfl, rfl, le_refl _, fun _ => rfl⟩
  · obtain ⟨p0, rest, rfl⟩ : ∃ p0 rest, ps = p0 :: rest := by
      cases ps with
      | nil => exact absurd rfl h
      | cons a l => exact ⟨a, l, rfl⟩
    have hl := List.getLast?_eq_getLast_of_ne_nil (List.cons_ne_nil p0 rest)
    rw [simplifyPath_cons t p0 rest h2 _ hl]
    obtain ⟨s, hs, hsub⟩ := simplifyAux_append t rest p0 [p0]
    rw [hs]
    by_cases heq : (([p0] ++ s) : List Point).getLast?
        = some ((p0 :: rest).getLast (List.cons_ne_nil p0 rest))
    · rw [if_pos heq]
      refine ⟨rfl, heq.trans hl.symm, ?_, fun hc => absurd hc h2⟩
      simpa using Nat.succ_le_succ hsub.length_le
    · rw [if_neg heq]
      refine ⟨by simp, ?_, ?_, fun hc => absurd hc h2⟩
      · rw [List.getLast?_concat, hl]
      · have hne : s ≠ rest := by
          intro hcontra
          subst hcontra
          exact heq hl
        have hlt : s.length < rest.length :=
          lt_of_le_of_ne hsub.length_le fun hlen => hne (hsub.eq_of_length hlen)
        simp only [List.length_append, List.length_cons, List.length_nil]
        omega

/-- Witness for C3 on a concrete three-point list with one near-duplicate. -/
theorem simplifyPath_endpoints_witness :
    ([⟨0, 0, none⟩, ⟨1, 0, none⟩, ⟨10, 0, none⟩] : List Point) ≠ [] ∧
    ((simplifyPath [⟨0, 0, none⟩, ⟨1, 0, none⟩, ⟨10, 0, none⟩] 2).head?
        = ([⟨0, 0, none⟩, ⟨1, 0, none⟩, ⟨10, 0, none⟩] : List Point).head? ∧
     (simplifyPath [⟨0, 0, none⟩, ⟨1, 0, none⟩, ⟨10, 0, none⟩] 2).getLast?
        = ([⟨0, 0, none⟩, ⟨1, 0, none⟩, ⟨10, 0, none⟩] : List Point).getLast? ∧
     (simplifyPath [⟨0, 0, none⟩, ⟨1, 0, none⟩, ⟨10, 0, none⟩] 2).length
        ≤ ([⟨0, 0, none⟩, ⟨1, 0, none⟩, ⟨10, 0, none⟩] : List Point).length ∧
     (([⟨0, 0, none⟩, ⟨1, 0, none⟩, ⟨10, 0, none⟩] : List Point).length ≤ 2 →
        simplifyPath [⟨0, 0, none⟩, ⟨1, 0, none⟩, ⟨10, 0, none⟩] 2
          = [⟨0, 0, none⟩, ⟨1, 0, none⟩, ⟨10, 0, none⟩])) :=
  ⟨by decide, simplifyPath_endpoints [⟨0, 0, none⟩, ⟨1, 0, none⟩, ⟨10, 0, none⟩] 2 (by decide)⟩

/-- Structure of a `simplifyPath` output on inputs longer than 2: all
consecutive pairs except possibly the final one satisfy the retain relation,
and the final pair either satisfies it or consists of two distinct points. -/
lemma simplifyPath_structure (t : ℚ) (p0 : Point) (rest : List Point)
    (h2 : ¬(p0 :: rest).length ≤ 2) :
    List.Chain' (retainRel t) (simplifyPath (p0 :: rest) t).dropLast ∧
    ∀ init a b, simplifyPath (p0 :: rest) t = init ++ [a, b] →
      retainRel t a b ∨ a ≠ b := by
  have hl := List.getLast?_eq_getLast_of_ne_nil (List.cons_ne_nil p0 rest)
  rw [simplifyPath_cons t p0 rest h2 _ hl]
  have hchain : List.Chain' (retainRel t) (simplifyAux t rest p0 [p0]) :=
    simplifyAux_chain t rest p0 [p0] (List.chain'_singleton p0) rfl
  by_cases heq : (simplifyAux t rest p0 [p0]).getLast?
      = some ((p0 :: rest).getLast (List.cons_ne_nil p0 rest))
  · rw [if_pos heq]
    constructor
    · by_cases hnil : simplifyAux t rest p0 [p0] = []
      · rw [hnil]; exact List.chain'_nil
      · exact hchain.prefix ⟨[(simplifyAux t rest p0 [p0]).getLast hnil],
          List.dropLast_append_getLast hnil⟩
    · intro init a b hsplit
      left
      have happ : init ++ [a] ++ [b] = init ++ [a, b] := by simp
      have hch2 : List.Chain' (retainRel t) ((init ++ [a]) ++ [b]) := by
        rw [happ, ← hsplit]
        exact hchain
      obtain ⟨-, -, hrel⟩ := List.chain'_append.mp hch2
      exact hrel a (by rw [List.getLast?_concat]; rfl) b rfl
  · rw [if_neg heq]
    constructor
    · rw [List.dropLast_concat]
      exact hchain
    · intro init a b hsplit
      right
      have hsplit' : (init ++ [a]) ++ [b]
          = simplifyAux t rest p0 [p0]
            ++ [(p0 :: rest).getLast (List.cons_ne_nil p0 rest)] := by
        rw [List.append_assoc]
        exact hsplit.symm
      obtain ⟨hinit, hb⟩ := List.append_inj' hsplit' rfl
      have hb' : b = (p0 :: rest).getLast (List.cons_ne_nil p0 rest) := by
        simpa using hb
      intro hab
      apply heq
      rw [← hinit, List.getLast?_concat, hab, hb']

/-- C9: `simplifyPath` at the default tolerance 2 is idempotent — running the
simplification stage a second time changes nothing. -/
theorem simplifyPath_idempotent (ps : List Point) :
    simplifyPath (simplifyPath ps 2) 2 = simplifyPath ps 2 := by
  by_cases hq2 : (simplifyPath ps 2).length ≤ 2
  · exact simplifyPath_short _ 2 hq2
  · have hps2 : ¬ps.length ≤ 2 := fun hle => hq2 (by rw [simplifyPath_short ps 2 hle]; exact hle)
    obtain ⟨p0, rest, rfl⟩ : ∃ p0 rest, ps = p0 :: rest := by
      cases ps with
      | nil => exact absurd (by simp) hps2
      | cons a l => exact ⟨a, l, rfl⟩
    obtain ⟨hA, hB⟩ := simplifyPath_structure 2 p0 rest hps2
    obtain ⟨q0, qtail, hq⟩ : ∃ q0 qtail, simplifyPath (p0 :: rest) 2 = q0 :: qtail := by
      cases hqe : simplifyPath (p0 :: rest) 2 with
      | nil => rw [hqe] at hq2; exact absurd (by simp) hq2
      | cons a l => exact ⟨a, l, rfl⟩
    obtain ⟨qmid, b, hqt⟩ : ∃ qmid b, qtail = qmid ++ [b] := by
      rcases List.eq_nil_or_concat qtail with hnil | ⟨L, x, hx⟩
      · rw [hq, hnil] at hq2; exact absurd (by simp) hq2
      · exact ⟨L, x, by simpa using hx⟩
    have hqs : simplifyPath (p0 :: rest) 2 = (q0 :: qmid) ++ [b] := by
      rw [hq, hqt]; rfl
    have hdrop : (simplifyPath (p0 :: rest) 2).dropLast = q0 :: qmid := by
      rw [hqs, List.dropLast_concat]
    rw [hdrop] at hA
    have hql : (q0 :: qtail).getLast? = some b := by
      rw [← hq, hqs, List.getLast?_concat]
    have hq2' : ¬(q0 :: qtail).length ≤ 2 := by rw [← hq]; exact hq2
    rw [hq, simplifyPath_cons 2 q0 qtail hq2' b
      (by rw [List.getLast?_eq_getLast_of_ne_nil (List.cons_ne_nil q0 qtail)] at hql ⊢; exact hql)]
    cases hR : distGe b ((q0 :: qmid).getLast (List.cons_ne_nil q0 qmid)) 2 with
    | true =>
        have hchainq : List.Chain' (retainRel 2) ((q0 :: qmid) ++ [b]) := by
          rw [List.chain'_append]
          refine ⟨hA, List.chain'_singleton b, ?_⟩
          intro x hx y hy
          rw [List.getLast?_eq_getLast_of_ne_nil (List.cons_ne_nil q0 qmid)] at hx
          simp only [Option.mem_def, Option.some.injEq] at hx
          simp only [List.head?_cons, Option.mem_def, Option.some.injEq] at hy
          subst hx; subst hy
          exact hR
        have hall : simplifyAux 2 qtail q0 [q0] = [q0] ++ qtail := by
          refine simplifyAux_of_chain 2 qtail q0 ?_ [q0]
          rw [hqt]
          simpa using hchainq
        rw [hall]
        rw [if_pos (by simpa using hql)]
        rfl
    | false =>
        have hskip : simplifyAux 2 (qmid ++ [b]) q0 [q0] = [q0] ++ qmid :=
          simplifyAux_concat_skip 2 qmid q0 b hA hR [q0]
        obtain ⟨init2, a, hinit2⟩ : ∃ init2 a, ((q0 :: qmid) : List Point) = init2 ++ [a] := by
          rcases List.eq_nil_or_concat (q0 :: qmid) with hnil | ⟨L, x, hx⟩
          · exact absurd hnil (List.cons_ne_nil q0 qmid)
          · exact ⟨L, x, by simpa using hx⟩
        have hga : ((q0 :: qmid) : List Point).getLast? = some a := by
          rw [hinit2]
          exact List.getLast?_concat _
        have haa : (q0 :: qmid).getLast (List.cons_ne_nil q0 qmid) = a := by
          rw [List.getLast?_eq_getLast_of_ne_nil (List.cons_ne_nil q0 qmid)] at hga
          exact Option.some_injective _ hga
        rw [haa] at hR
        have hab : a ≠ b := by
          rcases hB init2 a b (by rw [hqs, hinit2]; simp) with hr | hne
          · exfalso
            rw [retainRel, hR] at hr
            exact Bool.false_ne_true hr
          · exact hne
        have hq0 : (([q0] ++ qmid) : List Point) = q0 :: qmid := rfl
        have hga' : ((q0 :: qmid) : List Point).getLast? = some a := by
          rw [hinit2]
          exact List.getLast?_concat _
        rw [hqt, hskip]
        rw [if_neg (by
          rw [hq0, hga']
          intro hcontra
          exact hab (Option.some_injective _ hcontra))]
        simp

/-- The middle-segment loop emits one quadratic per remaining point. -/
lemma midQuads_length : ∀ (l : List Point) (a b : Point),
    (midQuads a b l).length = l.length := by
  intro l
  induction l with
  | nil => intro a b; rfl
  | cons c rest ih => intro a b; simp [midQuads, ih]

/-- Indexing the middle-segment loop: the j-th emitted segment is the
quadratic built from the sliding window at offset j of the full sequence. -/
lemma midQuads_getElem : ∀ (l : List Point) (a b : Point) (j : ℕ) (x y z : Point),
    ((a :: b :: l) : List Point)[j]? = some x →
    ((a :: b :: l) : List Point)[j + 1]? = some y →
    ((a :: b :: l) : List Point)[j + 2]? = some z →
    (midQuads a b l)[j]? =
      some (.quadTo (y.x + (z.x - x.x) / 6) (y.y + (z.y - x.y) / 6)
        ((y.x + z.x) / 2) ((y.y + z.y) / 2)) := by
  intro l
  induction l with
  | nil =>
      intro a b j x y z _ _ h3
      exfalso
      have hlen : (([a, b] : List Point)).length ≤ j + 2 := by
        simp only [List.length_cons, List.length_nil]
        omega
      rw [List.getElem?_eq_none hlen] at h3
      exact Option.noConfusion h3
  | cons c rest ih =>
      intro a b j x y z h1 h2 h3
      cases j with
      | zero =>
          simp only [List.getElem?_cons_zero, Option.some.injEq] at h1
          simp only [List.getElem?_cons_succ, List.getElem?_cons_zero,
            Option.some.injEq] at h2 h3
          subst h1; subst h2; subst h3
          simp [midQuads, getControlPoints]
      | succ j' =>
          have h1' : ((b :: c :: rest) : List Point)[j']? = some x := by
            simpa using h1
          have h2' : ((b :: c :: rest) : List Point)[j' + 1]? = some y := by
            simpa using h2
          have h3' : ((b :: c :: rest) : List Point)[j' + 2]? = some z := by
            simpa using h3
          simpa [midQuads] using ih b c j' x y z h1' h2' h3'

/-- C4: `createSmoothPath` returns an empty curve for 0 or 1 points, a single
straight segment (one move, one line) for exactly 2 points, and for 3 or more
points its final segment is a straight line ending exactly at the last input
point. -/
theorem createSmoothPath_cases (ps : List Point) :
    (ps.length ≤ 1 → createSmoothPath ps = []) ∧
    (∀ p0 p1, ps = [p0, p1] →
      createSmoothPath ps = [.moveTo p0.x p0.y, .lineTo p1.x p1.y]) ∧
    (3 ≤ ps.length → ∀ b, ps.getLast? = some b →
      (createSmoothPath ps).getLast? = some (.lineTo b.x b.y)) := by
  refine ⟨?_, ?_, ?_⟩
  · intro h1
    match ps, h1 with
    | [], _ => rfl
    | [_], _ => rfl
  · intro p0 p1 hps
    subst hps
    rfl
  · intro h3 b hb
    match ps, h3, hb with
    | p0 :: p1 :: p2 :: rest, _, hb =>
        have hbl : ((p2 :: rest) : List Point).getLast? = some b := by
          rw [← hb, List.getLast?_cons_cons, List.getLast?_cons_cons]
        have hbv : (p2 :: rest).getLast (List.cons_ne_nil p2 rest) = b := by
          rw [List.getLast?_eq_getLast_of_ne_nil (List.cons_ne_nil p2 rest)] at hbl
          exact Option.some_injective _ hbl
        show (([PathCmd.moveTo p0.x p0.y,
            PathCmd.quadTo p0.x p0.y ((p0.x + p1.x) / 2) ((p0.y + p1.y) / 2)]
            ++ midQuads p0 p1 (p2 :: rest)
            ++ [PathCmd.lineTo ((p2 :: rest).getLast (List.cons_ne_nil p2 rest)).x
                ((p2 :: rest).getLast (List.cons_ne_nil p2 rest)).y]) : List PathCmd).getLast?
          = some (.lineTo b.x b.y)
        rw [List.getLast?_concat, hbv]

/-- Witness for C4 at concrete 1-, 2- and 3-point inputs. -/
theorem createSmoothPath_cases_witness :
    createSmoothPath [⟨5, 5, none⟩] = [] ∧
    createSmoothPath [⟨0, 0, none⟩, ⟨4, 2, none⟩]
      = [.moveTo 0 0, .lineTo 4 2] ∧
    (createSmoothPath [⟨0, 0, none⟩, ⟨6, 0, none⟩, ⟨12, 6, none⟩]).getLast?
      = some (.lineTo 12 6) :=
  ⟨(createSmoothPath_cases [⟨5, 5, none⟩]).1 (by decide),
   (createSmoothPath_cases [⟨0, 0, none⟩, ⟨4, 2, none⟩]).2.1 ⟨0, 0, none⟩ ⟨4, 2, none⟩ rfl,
   (createSmoothPath_cases [⟨0, 0, none⟩, ⟨6, 0, none⟩, ⟨12, 6, none⟩]).2.2
     (by decide) ⟨12, 6, none⟩ rfl⟩

/-- C5: for an input of length n ≥ 3 the curve starts (after the initial move)
with a quadratic whose control point is the first point itself, ending at the
midpoint of the first two points; and for every interior index i with
1 ≤ i ≤ n − 2 the segment at position i + 1 is a quadratic with control point
pᵢ + (pᵢ₊₁ − pᵢ₋₁)/6 ending at the midpoint of pᵢ and pᵢ₊₁, in exact rational
arithmetic. -/
theorem createSmoothPath_segments (ps : List Point) (h : 3 ≤ ps.length) :
    (∀ a b, ps[0]? = some a → ps[1]? = some b →
      (createSmoothPath ps)[1]? =
        some (.quadTo a.x a.y ((a.x + b.x) / 2) ((a.y + b.y) / 2))) ∧
    (∀ i a b c, 1 ≤ i → i ≤ ps.length - 2 →
      ps[i - 1]? = some a → ps[i]? = some b → ps[i + 1]? = some c →
      (createSmoothPath ps)[i + 1]? =
        some (.quadTo (b.x + (c.x - a.x) / 6) (b.y + (c.y - a.y) / 6)
          ((b.x + c.x) / 2) ((b.y + c.y) / 2))) := by
  match ps, h with
  | p0 :: p1 :: p2 :: rest, _ =>
      constructor
      · intro a b h0 h1
        simp only [List.getElem?_cons_zero, List.getElem?_cons_succ,
          Option.some.injEq] at h0 h1
        subst h0; subst h1
        rfl
      · intro i a b c hi1 hi2 ha hb hc
        obtain ⟨k, rfl⟩ : ∃ k, i = k + 1 := ⟨i - 1, by omega⟩
        simp only [Nat.add_sub_cancel] at ha
        have hk : k < (midQuads p0 p1 (p2 :: rest)).length := by
          rw [midQuads_length]
          simp only [List.length_cons] at hi2 ⊢
          omega
        show (([PathCmd.moveTo p0.x p0.y,
            PathCmd.quadTo p0.x p0.y ((p0.x + p1.x) / 2) ((p0.y + p1.y) / 2)]
            ++ midQuads p0 p1 (p2 :: rest)
            ++ [PathCmd.lineTo ((p2 :: rest).getLast (List.cons_ne_nil p2 rest)).x
                ((p2 :: rest).getLast (List.cons_ne_nil p2 rest)).y]) : List PathCmd)[k + 1 + 1]?
          = _
        rw [List.append_assoc]
        rw [List.getElem?_append_right (by simp)]
        simp only [List.length_cons, List.length_nil]
        have hidx : k + 1 + 1 - (0 + 1 + 1) = k := by omega
        rw [hidx]
        rw [List.getElem?_append_left hk]
        exact midQuads_getElem (p2 :: rest) p0 p1 k a b c ha hb hc

/-- Witness for C5 at the concrete input [(0,0), (6,0), (12,6)] and interior
index i = 1. -/
theorem createSmoothPath_segments_witness :
    3 ≤ ([⟨0, 0, none⟩, ⟨6, 0, none⟩, ⟨12, 6, none⟩] : List Point).length ∧
    (createSmoothPath [⟨0, 0, none⟩, ⟨6, 0, none⟩, ⟨12, 6, none⟩])[1]?
      = some (.quadTo 0 0 ((0 + 6) / 2) ((0 + 0) / 2)) ∧
    (createSmoothPath [⟨0, 0, none⟩, ⟨6, 0, none⟩, ⟨12, 6, none⟩])[2]?
      = some (.quadTo (6 + (12 - 0) / 6) (0 + (6 - 0) / 6) ((6 + 12) / 2) ((0 + 6) / 2)) :=
  ⟨by decide,
   (createSmoothPath_segments [⟨0, 0, none⟩, ⟨6, 0, none⟩, ⟨12, 6, none⟩] (by decide)).1
     ⟨0, 0, none⟩ ⟨6, 0, none⟩ rfl rfl,
   (createSmoothPath_segments [⟨0, 0, none⟩, ⟨6, 0, none⟩, ⟨12, 6, none⟩] (by decide)).2
     1 ⟨0, 0, none⟩ ⟨6, 0, none⟩ ⟨12, 6, none⟩ (by decide) (by decide) rfl rfl rfl⟩

/-- Counterexample to C6 as stated: with the eraser tool active, a pointerDown
in the Idle state installs an inProgress command whose kind is `stroke`, not
`erase` — `canvasReducer` hardcodes `type: 'stroke'` in its `START_STROKE`
case and the grant handler passes no tool kind. -/
theorem pointer_down_eraser_still_stroke :
    ((pointerDown { type := .eraser, color := ⟨0, 0, 0, some 1⟩, size := 5, opacity := 1 }
        "e1" ⟨1, 1, none⟩ initialCanvasState).currentCommand.map DrawCommand.type)
      = some CmdType.stroke ∧ CmdType.stroke ≠ CmdType.erase :=
  ⟨rfl, by decide⟩

/-- C6 amended: a pointerDown in the Idle state installs an inProgress command
whose kind is Stroke regardless of which tool (pen or eraser) is active, with
points equal to the single-element list [point] and style a snapshot of the
current tool settings. -/
theorem pointer_down_installs_stroke (s : CanvasState)
    (_h : s.currentCommand = none) (t : ToolSettings) (id : String) (p : Point) :
    (pointerDown t id p s).currentCommand
      = some { id := id, type := .stroke, points := some [p],
               style := some (styleOfTool t) } := rfl

/-- Witness for the amended C6 at the initial state with the eraser active. -/
theorem pointer_down_installs_stroke_witness :
    initialCanvasState.currentCommand = none ∧
    (pointerDown { type := .eraser, color := ⟨0, 0, 0, some 1⟩, size := 5, opacity := 1 }
        "e1" ⟨1, 1, none⟩ initialCanvasState).currentCommand
      = some { id := "e1", type := .stroke, points := some [⟨1, 1, none⟩],
               style := some (styleOfTool
                 { type := .eraser, color := ⟨0, 0, 0, some 1⟩, size := 5, opacity := 1 }) } :=
  ⟨rfl, pointer_down_installs_stroke initialCanvasState rfl _ "e1" ⟨1, 1, none⟩⟩
